import Mathlib

/-!
Shallow embedding of the rust-gpu-gmm repository (a CUDA GEMM microkernel
written in Rust) and proofs about it.

Scalar values (f32 in the source) are modelled generically: computations are
parametrised over a carrier type with explicit addition, multiplication, zero
and equality-test parameters, so that statements about which values are
combined, in which order, hold for any interpretation of the arithmetic
(in particular for the machine floating-point one).  Where a claim needs a
genuine ordered field (absolute values, tolerance comparison) we instantiate
with the rationals.

Machine integers (u32 / usize) are modelled as Nat; none of the verified code
paths can overflow in the source language for the ranges the claims quantify
over, and all index arithmetic in the source is non-negative.
-/

namespace RustGpuGmm

/-! ## Tensor layout definitions, from src/utils/src/tensor_defs.rs -/

/-- Embeds enum MemoryLayout. -/
inductive MemoryLayout where
  | RowMajor : MemoryLayout
  | ColumnMajor : MemoryLayout
  | Tiled : (tile_m : Nat) → (tile_n : Nat) → MemoryLayout
deriving DecidableEq, Repr

/-- Embeds struct TensorShape. -/
structure TensorShape where
  rows : Nat
  cols : Nat
deriving DecidableEq, Repr

/-- Embeds TensorShape::new. -/
def TensorShape.new (rows cols : Nat) : TensorShape := ⟨rows, cols⟩

/-- Embeds TensorShape::size. -/
def TensorShape.size (s : TensorShape) : Nat := s.rows * s.cols

/-- Embeds TensorShape::is_valid. -/
def TensorShape.is_valid (s : TensorShape) : Bool := 0 < s.rows && 0 < s.cols

/-- Embeds struct TensorLayout. -/
structure TensorLayout where
  shape : TensorShape
  layout : MemoryLayout
  leading_dim : Nat
deriving DecidableEq, Repr

/-- Embeds TensorLayout::row_major. -/
def TensorLayout.row_major (rows cols : Nat) : TensorLayout :=
  { shape := TensorShape.new rows cols
    layout := MemoryLayout.RowMajor
    leading_dim := cols }

/-- Embeds TensorLayout::column_major. -/
def TensorLayout.column_major (rows cols : Nat) : TensorLayout :=
  { shape := TensorShape.new rows cols
    layout := MemoryLayout.ColumnMajor
    leading_dim := rows }

/-- Embeds TensorLayout::tiled. -/
def TensorLayout.tiled (rows cols tile_m tile_n : Nat) : TensorLayout :=
  { shape := TensorShape.new rows cols
    layout := MemoryLayout.Tiled tile_m tile_n
    leading_dim := cols }

/-- Embeds TensorLayout::index (the debug_assert bounds checks are captured
as hypotheses of the theorems about it, as the source makes out-of-range
calls undefined behaviour). -/
def TensorLayout.index (t : TensorLayout) (row col : Nat) : Nat :=
  match t.layout with
  | MemoryLayout.RowMajor => row * t.leading_dim + col
  | MemoryLayout.ColumnMajor => col * t.leading_dim + row
  | MemoryLayout.Tiled tile_m tile_n =>
      let tile_row := row / tile_m
      let tile_col := col / tile_n
      let in_tile_row := row % tile_m
      let in_tile_col := col % tile_n
      let tiles_per_row := (t.shape.cols + tile_n - 1) / tile_n
      let tile_idx := tile_row * tiles_per_row + tile_col
      let in_tile_idx := in_tile_row * tile_n + in_tile_col
      tile_idx * (tile_m * tile_n) + in_tile_idx

/-- Embeds TensorLayout::row_stride. -/
def TensorLayout.row_stride (t : TensorLayout) : Nat :=
  match t.layout with
  | MemoryLayout.RowMajor => t.leading_dim
  | MemoryLayout.ColumnMajor => 1
  | MemoryLayout.Tiled _ tile_n => tile_n

/-- Embeds TensorLayout::col_stride. -/
def TensorLayout.col_stride (t : TensorLayout) : Nat :=
  match t.layout with
  | MemoryLayout.RowMajor => 1
  | MemoryLayout.ColumnMajor => t.leading_dim
  | MemoryLayout.Tiled tile_m _ => tile_m

/-- Embeds TensorLayout::is_gemm_compatible. -/
def TensorLayout.is_gemm_compatible (a b c : TensorLayout) : Bool :=
  a.shape.cols == b.shape.rows
    && a.shape.rows == c.shape.rows
    && b.shape.cols == c.shape.cols

/-- Embeds struct TileConfig. -/
structure TileConfig where
  tile_m : Nat
  tile_n : Nat
  tile_k : Nat
  warp_m : Nat
  warp_n : Nat
  warp_k : Nat
deriving DecidableEq, Repr

/-- Embeds TileConfig::ampere_default. -/
def TileConfig.ampere_default : TileConfig :=
  { tile_m := 128, tile_n := 128, tile_k := 16
    warp_m := 32, warp_n := 32, warp_k := 16 }

/-- Embeds TileConfig::warps_per_block. -/
def TileConfig.warps_per_block (c : TileConfig) : Nat :=
  let warps_m := (c.tile_m + c.warp_m - 1) / c.warp_m
  let warps_n := (c.tile_n + c.warp_n - 1) / c.warp_n
  warps_m * warps_n

/-- Embeds TileConfig::threads_per_block. -/
def TileConfig.threads_per_block (c : TileConfig) : Nat :=
  c.warps_per_block * 32

end RustGpuGmm

namespace RustGpuGmm

/-! ## Theorems about the layout component (claims about tensor_defs.rs) -/

/-- Ceiling division on Nat agrees with the (x + d - 1) / d idiom the source
uses throughout; stated once and shared by the proofs below. -/
theorem add_pred_div_eq_ceil (x d : Nat) (hd : 0 < d) :
    (x + d - 1) / d = x / d + (if x % d = 0 then 0 else 1) := by
  obtain ⟨q, r, hr, rfl⟩ : ∃ q r, r < d ∧ x = d * q + r :=
    ⟨x / d, x % d, Nat.mod_lt _ hd, (Nat.div_add_mod x d).symm⟩
  have hmod : (d * q + r) % d = r := by
    rw [Nat.add_mod, Nat.mul_mod_right, Nat.zero_add, Nat.mod_eq_of_lt hr,
      Nat.mod_eq_of_lt hr]
  have hdiv : (d * q + r) / d = q := by
    rw [Nat.mul_add_div hd, Nat.div_eq_of_lt hr]
    omega
  rcases Nat.eq_zero_or_pos r with hr0 | hr0
  · subst hr0
    rw [hmod, hdiv, if_pos rfl, Nat.add_zero, Nat.add_zero]
    have e1 : d * q + d - 1 = d * q + (d - 1) := by omega
    rw [e1, Nat.mul_add_div hd, Nat.div_eq_of_lt (by omega : d - 1 < d)]
    omega
  · rw [hmod, hdiv, if_neg (by omega : ¬ r = 0)]
    have hstep : d * (q + 1) = d * q + d := Nat.mul_succ d q
    have e1 : d * q + r + d - 1 = d * (q + 1) + (r - 1) := by omega
    rw [e1, Nat.mul_add_div hd, Nat.div_eq_of_lt (by omega : r - 1 < d)]

/-- C6: for every valid shape and in-range (r, c), a row_major layout indexes
at r*cols + c, a column_major layout at c*rows + r, and a tiled layout at
tile_idx*(tile_m*tile_n) + in_tile_idx with tile_idx built from the ceiling
tile count per row (tiles_per_row = (cols + tile_n - 1) / tile_n, which is
ceil(cols / tile_n) by add_pred_div_eq_ceil). -/
theorem layout_index_formulas (rows cols tile_m tile_n r c : Nat)
    (hrows : 0 < rows) (hcols : 0 < cols) (hr : r < rows) (hc : c < cols) :
    (TensorLayout.row_major rows cols).index r c = r * cols + c ∧
    (TensorLayout.column_major rows cols).index r c = c * rows + r ∧
    (TensorLayout.tiled rows cols tile_m tile_n).index r c =
      ((r / tile_m) * ((cols + tile_n - 1) / tile_n) + c / tile_n)
          * (tile_m * tile_n)
        + ((r % tile_m) * tile_n + c % tile_n) := by
  refine ⟨rfl, rfl, rfl⟩

/-- Witness for layout_index_formulas at rows=4, cols=3, 2 by 2 tiles,
(r, c) = (1, 1). -/
theorem layout_index_formulas_witness :
    (TensorLayout.row_major 4 3).index 1 1 = 1 * 3 + 1 ∧
    (TensorLayout.column_major 4 3).index 1 1 = 1 * 4 + 1 ∧
    (TensorLayout.tiled 4 3 2 2).index 1 1 =
      ((1 / 2) * ((3 + 2 - 1) / 2) + 1 / 2) * (2 * 2) + ((1 % 2) * 2 + 1 % 2) :=
  layout_index_formulas 4 3 2 2 1 1 (by decide) (by decide) (by decide) (by decide)

/-- C7 counterexample: the stride contract fails for Tiled layouts.  In a
2 by 2-tiled layout a unit column step inside a tile moves memory distance 1
while col_stride() returns tile_m = 2 (shown on a 1 by 2 matrix at (0,0) to
(0,1)); and a unit row step across a tile boundary in a 4 by 4 matrix moves
distance 6 while row_stride() returns tile_n = 2 (shown at (1,0) to (2,0)).
Both indices are in range for the respective shapes. -/
theorem tiled_stride_counterexample :
    ((TensorLayout.tiled 1 2 2 2).index 0 1 - (TensorLayout.tiled 1 2 2 2).index 0 0
        ≠ (TensorLayout.tiled 1 2 2 2).col_stride) ∧
    ((TensorLayout.tiled 4 4 2 2).index 2 0 - (TensorLayout.tiled 4 4 2 2).index 1 0
        ≠ (TensorLayout.tiled 4 4 2 2).row_stride) := by
  decide

/-- C7 amended: for RowMajor and ColumnMajor layouts (arbitrary leading
dimension, hence in particular those built by row_major / column_major),
row_stride() and col_stride() are exactly the memory distance of a unit step
in each logical dimension; for Tiled layouts the contract does not hold
(see tiled_stride_counterexample). -/
theorem strides_row_and_column_major (t : TensorLayout) (r c : Nat)
    (hlay : t.layout = MemoryLayout.RowMajor ∨ t.layout = MemoryLayout.ColumnMajor) :
    (r + 1 < t.shape.rows → c < t.shape.cols →
      t.index (r + 1) c - t.index r c = t.row_stride) ∧
    (r < t.shape.rows → c + 1 < t.shape.cols →
      t.index r (c + 1) - t.index r c = t.col_stride) := by
  rcases hlay with h | h <;>
    simp only [TensorLayout.index, TensorLayout.row_stride, TensorLayout.col_stride, h] <;>
    constructor <;> intro h1 h2 <;>
    [skip; skip; skip; skip] <;>
    first
    | (have e : (r + 1) * t.leading_dim = r * t.leading_dim + t.leading_dim := by ring
       omega)
    | (have e : (c + 1) * t.leading_dim = c * t.leading_dim + t.leading_dim := by ring
       omega)

/-- Witness for strides_row_and_column_major on a row_major 4 by 3 layout at
(r, c) = (1, 1). -/
theorem strides_row_and_column_major_witness :
    ((TensorLayout.row_major 4 3).index 2 1 - (TensorLayout.row_major 4 3).index 1 1
        = (TensorLayout.row_major 4 3).row_stride) ∧
    ((TensorLayout.row_major 4 3).index 1 2 - (TensorLayout.row_major 4 3).index 1 1
        = (TensorLayout.row_major 4 3).col_stride) := by
  have h := strides_row_and_column_major (TensorLayout.row_major 4 3) 1 1 (Or.inl rfl)
  exact ⟨h.1 (by decide) (by decide), h.2 (by decide) (by decide)⟩

/-- C8: for every TileConfig with positive fields, warps_per_block() is the
product of the two ceiling divisions ceil(tile_m/warp_m) * ceil(tile_n/warp_n)
(spelled out via quotient plus remainder test), threads_per_block() is
warps_per_block() * 32, and the ampere_default configuration has 16 warps and
512 threads per block. -/
theorem tileconfig_thread_counts (c : TileConfig)
    (h1 : 0 < c.tile_m) (h2 : 0 < c.tile_n) (h3 : 0 < c.tile_k)
    (h4 : 0 < c.warp_m) (h5 : 0 < c.warp_n) (h6 : 0 < c.warp_k) :
    c.warps_per_block =
      (c.tile_m / c.warp_m + if c.tile_m % c.warp_m = 0 then 0 else 1)
        * (c.tile_n / c.warp_n + if c.tile_n % c.warp_n = 0 then 0 else 1) ∧
    c.threads_per_block = c.warps_per_block * 32 ∧
    TileConfig.ampere_default.warps_per_block = 16 ∧
    TileConfig.ampere_default.threads_per_block = 512 := by
  refine ⟨?_, rfl, by decide, by decide⟩
  unfold TileConfig.warps_per_block
  rw [add_pred_div_eq_ceil _ _ h4, add_pred_div_eq_ceil _ _ h5]

/-- Witness for tileconfig_thread_counts at the ampere_default configuration. -/
theorem tileconfig_thread_counts_witness :
    TileConfig.ampere_default.warps_per_block =
      (TileConfig.ampere_default.tile_m / TileConfig.ampere_default.warp_m
          + if TileConfig.ampere_default.tile_m % TileConfig.ampere_default.warp_m = 0
            then 0 else 1)
        * (TileConfig.ampere_default.tile_n / TileConfig.ampere_default.warp_n
          + if TileConfig.ampere_default.tile_n % TileConfig.ampere_default.warp_n = 0
            then 0 else 1) ∧
    TileConfig.ampere_default.threads_per_block =
      TileConfig.ampere_default.warps_per_block * 32 ∧
    TileConfig.ampere_default.warps_per_block = 16 ∧
    TileConfig.ampere_default.threads_per_block = 512 :=
  tileconfig_thread_counts TileConfig.ampere_default
    (by decide) (by decide) (by decide) (by decide) (by decide) (by decide)

/-- C9: is_gemm_compatible(A, B, C) returns true exactly when A.cols = B.rows,
A.rows = C.rows and B.cols = C.cols; on the shapes A 10x20, B 21x30, C 10x30
it returns false. -/
theorem is_gemm_compatible_iff :
    (∀ a b c : TensorLayout,
      TensorLayout.is_gemm_compatible a b c = true ↔
        (a.shape.cols = b.shape.rows ∧ a.shape.rows = c.shape.rows ∧
          b.shape.cols = c.shape.cols)) ∧
    TensorLayout.is_gemm_compatible (TensorLayout.row_major 10 20)
      (TensorLayout.row_major 21 30) (TensorLayout.row_major 10 30) = false := by
  refine ⟨?_, by decide⟩
  intro a b c
  simp [TensorLayout.is_gemm_compatible, Bool.and_eq_true, beq_iff_eq, and_assoc]

/-! ## The naive GEMM kernel, from src/cuda-kernel/src/lib.rs (gemm_kernel)
and its launcher GemmKernel::launch from src/src/lib.rs.

Thread-geometry modelling: the kernel reads tx = thread::index_1d() and
divides it by block_dim_x to recover a (row, col) pair inside the block,
so tx is modelled as the flattened thread index within the block,
ranging over 0 .. block_dim_x * block_dim_y (the standard CUDA flattening
threadIdx.y * blockDim.x + threadIdx.x enumerates exactly these values). -/

/-- Embeds const TILE_K (kernel crate). -/
def TILE_K : Nat := 16

/-- Embeds const TILE_M (kernel crate). -/
def TILE_M : Nat := 128

/-- Embeds const TILE_N (kernel crate). -/
def TILE_N : Nat := 128

/-- Row computed by a gemm_kernel thread: by * block_dim_y + tx / block_dim_x. -/
def gemmKernelRow (block_dim_x block_dim_y byy tx : Nat) : Nat :=
  byy * block_dim_y + tx / block_dim_x

/-- Column computed by a gemm_kernel thread: bx * block_dim_x + tx % block_dim_x. -/
def gemmKernelCol (block_dim_x bxx tx : Nat) : Nat :=
  bxx * block_dim_x + tx % block_dim_x

/-- Grid x extent computed by GemmKernel::launch: (n + block_size.0 - 1) / block_size.0. -/
def launchGridX (n block_dim_x : Nat) : Nat := (n + block_dim_x - 1) / block_dim_x

/-- Grid y extent computed by GemmKernel::launch: (m + block_size.1 - 1) / block_size.1. -/
def launchGridY (m block_dim_y : Nat) : Nat := (m + block_dim_y - 1) / block_dim_y

/-- Output index written by a gemm_kernel thread; none when the early-return
guard row >= m || col >= n fires. -/
def gemmKernelTarget (m n block_dim_x block_dim_y bxx byy tx : Nat) : Option Nat :=
  let row := gemmKernelRow block_dim_x block_dim_y byy tx
  let col := gemmKernelCol block_dim_x bxx tx
  if row < m ∧ col < n then some (row * n + col) else none

/-- The sequence of K indices p visited by the chunked loop of gemm_kernel:
for tile in 0 .. (k + TILE_K - 1) / TILE_K, p runs from tile * TILE_K to
min(tile * TILE_K + TILE_K, k). -/
def gemmKernelKSeq (k : Nat) : List Nat :=
  (List.range ((k + TILE_K - 1) / TILE_K)).flatMap
    (fun tile =>
      List.range' (tile * TILE_K) (min (tile * TILE_K + TILE_K) k - tile * TILE_K))

/-- Left-to-right accumulation sum += a[row*k + p] * b[p*n + col] over a given
index sequence, with explicit scalar operations so statements hold for any
interpretation of the arithmetic, including machine f32. -/
def dotAcc {α : Type} (add mul : α → α → α) (zero : α) (k n : Nat)
    (a b : Nat → α) (row col : Nat) (ps : List Nat) : α :=
  ps.foldl (fun s p => add s (mul (a (row * k + p)) (b (p * n + col)))) zero

/-- Inner-product accumulator of gemm_kernel for a thread at (row, col). -/
def gemmKernelSum {α : Type} (add mul : α → α → α) (zero : α) (k n : Nat)
    (a b : Nat → α) (row col : Nat) : α :=
  dotAcc add mul zero k n a b row col (gemmKernelKSeq k)

/-- Reference accumulation order of verify_gemm (src/src/lib.rs): p from 0 to
k-1, strictly left to right. -/
def referenceSum {α : Type} (add mul : α → α → α) (zero : α) (k n : Nat)
    (a b : Nat → α) (row col : Nat) : α :=
  dotAcc add mul zero k n a b row col (List.range k)

/-- Epilogue write value shared verbatim by gemm_kernel and gemm_kernel_tiled:
alpha * sum when beta == 0.0, else alpha * sum + beta * c_old; the prior C
value is only consulted in the second branch. -/
def gemmEpilogueVal {α : Type} (add mul : α → α → α) (zero : α)
    (beq : α → α → Bool) (alpha beta sum cOld : α) : α :=
  if beq beta zero then mul alpha sum else add (mul alpha sum) (mul beta cOld)

/-- Full per-thread behaviour of gemm_kernel: the written index and value, or
none for guarded-out threads.  The prior contents of C enter only through the
function c. -/
def gemmKernelElem {α : Type} (add mul : α → α → α) (zero : α)
    (beq : α → α → Bool) (m n k : Nat) (alpha beta : α)
    (a b c : Nat → α) (block_dim_x block_dim_y bxx byy tx : Nat) :
    Option (Nat × α) :=
  let row := gemmKernelRow block_dim_x block_dim_y byy tx
  let col := gemmKernelCol block_dim_x bxx tx
  if row < m ∧ col < n then
    some (row * n + col,
      gemmEpilogueVal add mul zero beq alpha beta
        (gemmKernelSum add mul zero k n a b row col) (c (row * n + col)))
  else none

/-- The chunked loop of gemm_kernel concatenates its per-tile ranges into an
initial segment of the naturals: the first N chunks of width T cover
exactly 0 .. min(N*T, k). -/
theorem flatMap_chunk_ranges (T k : Nat) (hT : 0 < T) :
    ∀ N : Nat,
      (List.range N).flatMap
          (fun t => List.range' (t * T) (min (t * T + T) k - t * T))
        = List.range' 0 (min (N * T) k) := by
  intro N
  induction N with
  | zero => simp
  | succ N ih =>
      rw [List.range_succ, List.flatMap_append, ih]
      simp only [List.flatMap_cons, List.flatMap_nil, List.append_nil]
      rcases Nat.le_total k (N * T) with hk | hk
      · have h1 : min (N * T) k = k := by omega
        have h2 : min (N * T + T) k = k := by omega
        have h3 : min ((N + 1) * T) k = k := by
          have : (N + 1) * T = N * T + T := by ring
          omega
        rw [h1, h2, h3, (by omega : k - N * T = 0)]
        simp
      · have h1 : min (N * T) k = N * T := by omega
        have h2 : N * T ≤ min (N * T + T) k := by omega
        rw [h1]
        have happ := List.range'_append 0 (N * T) (min (N * T + T) k - N * T) 1
        simp only [Nat.one_mul, Nat.zero_add] at happ
        rw [happ]
        congr 1
        have h3 : (N + 1) * T = N * T + T := by ring
        omega

/-- The K-loop of gemm_kernel visits every p in 0 .. k-1 exactly once, in
increasing order. -/
theorem gemmKernelKSeq_eq_range (k : Nat) : gemmKernelKSeq k = List.range k := by
  unfold gemmKernelKSeq
  rw [flatMap_chunk_ranges TILE_K k (by decide)]
  have hceil : k ≤ (k + TILE_K - 1) / TILE_K * TILE_K := by
    have hd := Nat.div_add_mod (k + TILE_K - 1) TILE_K
    have hm : (k + TILE_K - 1) % TILE_K < TILE_K := Nat.mod_lt _ (by decide)
    have : TILE_K * ((k + TILE_K - 1) / TILE_K) = (k + TILE_K - 1) / TILE_K * TILE_K :=
      Nat.mul_comm _ _
    omega
  rw [min_eq_right hceil, List.range_eq_range']

/-- Uniqueness of quotient and remainder, in the orientation the kernel index
arithmetic produces it. -/
theorem div_mod_of_decomp (d x q r : Nat) (hd : 0 < d) (hqr : q * d + r = x)
    (hr : r < d) : x / d = q ∧ x % d = r :=
  (Nat.div_mod_unique hd).mpr ⟨by rw [← hqr]; ring, hr⟩

/-- C1: for positive m, n, k and block dims, GemmKernel::launch computes the
grid extents by ceiling division, and under grid (gridX, gridY) with
block_dim_x * block_dim_y threads per block, every output coordinate (i, j)
with i < m, j < n is written by exactly one (block_x, block_y, thread) triple
of the launch, and every write of any thread lands at some i * n + j with
i < m and j < n (hence inside the m * n output region). -/
theorem gemm_kernel_exactly_once_coverage (m n k bdx bdy : Nat)
    (hm : 0 < m) (hn : 0 < n) (hk : 0 < k) (hbdx : 0 < bdx) (hbdy : 0 < bdy) :
    (launchGridX n bdx = n / bdx + (if n % bdx = 0 then 0 else 1) ∧
     launchGridY m bdy = m / bdy + (if m % bdy = 0 then 0 else 1)) ∧
    (∀ i j, i < m → j < n →
      ∃! t : Nat × Nat × Nat,
        (t.1 < launchGridX n bdx ∧ t.2.1 < launchGridY m bdy ∧
          t.2.2 < bdx * bdy) ∧
        gemmKernelTarget m n bdx bdy t.1 t.2.1 t.2.2 = some (i * n + j)) ∧
    (∀ bxx byy tx idx,
      gemmKernelTarget m n bdx bdy bxx byy tx = some idx →
      ∃ i j, i < m ∧ j < n ∧ idx = i * n + j ∧ idx < m * n) := by
  refine ⟨⟨add_pred_div_eq_ceil n bdx hbdx, add_pred_div_eq_ceil m bdy hbdy⟩, ?_, ?_⟩
  · intro i j hi hj
    have hgx : j / bdx < launchGridX n bdx := by
      have e : n + bdx - 1 = (n - 1) + bdx := by omega
      have e2 : launchGridX n bdx = (n - 1) / bdx + 1 := by
        unfold launchGridX
        rw [e, Nat.add_div_right _ hbdx]
      have e3 : j / bdx ≤ (n - 1) / bdx :=
        Nat.div_le_div_right (by omega : j ≤ n - 1)
      omega
    have hgy : i / bdy < launchGridY m bdy := by
      have e : m + bdy - 1 = (m - 1) + bdy := by omega
      have e2 : launchGridY m bdy = (m - 1) / bdy + 1 := by
        unfold launchGridY
        rw [e, Nat.add_div_right _ hbdy]
      have e3 : i / bdy ≤ (m - 1) / bdy :=
        Nat.div_le_div_right (by omega : i ≤ m - 1)
      omega
    have him : i % bdy < bdy := Nat.mod_lt _ hbdy
    have hjm : j % bdx < bdx := Nat.mod_lt _ hbdx
    have htx0 : i % bdy * bdx + j % bdx < bdx * bdy := by
      have h3 : (i % bdy + 1) * bdx ≤ bdy * bdx :=
        Nat.mul_le_mul_right _ (by omega)
      have h4 : (i % bdy + 1) * bdx = i % bdy * bdx + bdx := by ring
      have h5 : bdy * bdx = bdx * bdy := Nat.mul_comm _ _
      omega
    have hdm0 : (i % bdy * bdx + j % bdx) / bdx = i % bdy ∧
        (i % bdy * bdx + j % bdx) % bdx = j % bdx :=
      div_mod_of_decomp bdx _ (i % bdy) (j % bdx) hbdx rfl hjm
    have hrow0 : gemmKernelRow bdx bdy (i / bdy) (i % bdy * bdx + j % bdx) = i := by
      unfold gemmKernelRow
      rw [hdm0.1, Nat.div_add_mod' i bdy]
    have hcol0 : gemmKernelCol bdx (j / bdx) (i % bdy * bdx + j % bdx) = j := by
      unfold gemmKernelCol
      rw [hdm0.2, Nat.div_add_mod' j bdx]
    refine ⟨(j / bdx, i / bdy, i % bdy * bdx + j % bdx),
      ⟨⟨hgx, hgy, htx0⟩, ?_⟩, ?_⟩
    · unfold gemmKernelTarget
      rw [hrow0, hcol0, if_pos ⟨hi, hj⟩]
    · rintro ⟨bxx, byy, tx⟩ ⟨⟨hbx, hby, htx⟩, htgt⟩
      unfold gemmKernelTarget at htgt
      dsimp only at htgt hbx hby htx
      split at htgt
      case isFalse => exact absurd htgt (by simp)
      case isTrue hcond =>
        have hidx : gemmKernelRow bdx bdy byy tx * n + gemmKernelCol bdx bxx tx
            = i * n + j := by
          have := Option.some.inj htgt
          omega
        have hdm1 : (i * n + j) / n = gemmKernelRow bdx bdy byy tx ∧
            (i * n + j) % n = gemmKernelCol bdx bxx tx :=
          div_mod_of_decomp n _ _ _ hn hidx hcond.2
        have hdm2 : (i * n + j) / n = i ∧ (i * n + j) % n = j :=
          div_mod_of_decomp n _ i j hn rfl hj
        have hrow : gemmKernelRow bdx bdy byy tx = i := by omega
        have hcol : gemmKernelCol bdx bxx tx = j := by omega
        have htxd : tx / bdx < bdy := by
          rw [Nat.div_lt_iff_lt_mul hbdx]
          have := Nat.mul_comm bdx bdy
          omega
        have hdm3 : i / bdy = byy ∧ i % bdy = tx / bdx :=
          div_mod_of_decomp bdy i byy (tx / bdx) hbdy hrow htxd
        have hdm4 : j / bdx = bxx ∧ j % bdx = tx % bdx :=
          div_mod_of_decomp bdx j bxx (tx % bdx) hbdx hcol (Nat.mod_lt _ hbdx)
        have htxval : tx = i % bdy * bdx + j % bdx := by
          have := Nat.div_add_mod' tx bdx
          have e1 : i % bdy * bdx = tx / bdx * bdx := by rw [hdm3.2]
          omega
        simp only [Prod.mk.injEq]
        exact ⟨hdm4.1.symm, hdm3.1.symm, htxval⟩
  · intro bxx byy tx idx htgt
    unfold gemmKernelTarget at htgt
    dsimp only at htgt
    split at htgt
    case isFalse => exact absurd htgt (by simp)
    case isTrue hcond =>
      refine ⟨gemmKernelRow bdx bdy byy tx, gemmKernelCol bdx bxx tx,
        hcond.1, hcond.2, (Option.some.inj htgt).symm, ?_⟩
      have h1 : (gemmKernelRow bdx bdy byy tx + 1) * n ≤ m * n :=
        Nat.mul_le_mul_right _ (by omega)
      have h2 : (gemmKernelRow bdx bdy byy tx + 1) * n
          = gemmKernelRow bdx bdy byy tx * n + n := by ring
      have := Option.some.inj htgt
      omega

/-- Witness for gemm_kernel_exactly_once_coverage: m = 3, n = 2, k = 1 with
2 by 2 blocks; the coverage statement instantiated at output element (2, 1). -/
theorem gemm_kernel_exactly_once_coverage_witness :
    ∃! t : Nat × Nat × Nat,
      (t.1 < launchGridX 2 2 ∧ t.2.1 < launchGridY 3 2 ∧ t.2.2 < 2 * 2) ∧
      gemmKernelTarget 3 2 2 2 t.1 t.2.1 t.2.2 = some (2 * 2 + 1) :=
  (gemm_kernel_exactly_once_coverage 3 2 1 2 2 (by decide) (by decide)
    (by decide) (by decide) (by decide)).2.1 2 1 (by decide) (by decide)

/-- C10: the K-loop of the naive gemm_kernel visits p = 0..k-1 exactly once in
increasing order, so for every interpretation of the scalar arithmetic (hence
bit for bit under machine f32 semantics) its accumulated sum equals the
reference sum of verify_gemm, and for beta != 0 the written value
alpha * sum + beta * c_old equals the reference expression exactly. -/
theorem gemm_kernel_sum_refines_reference :
    (∀ k, gemmKernelKSeq k = List.range k) ∧
    (∀ (α : Type) (add mul : α → α → α) (zero : α) (k n : Nat)
        (a b : Nat → α) (row col : Nat),
      gemmKernelSum add mul zero k n a b row col
        = referenceSum add mul zero k n a b row col) ∧
    (∀ (α : Type) (add mul : α → α → α) (zero : α) (beq : α → α → Bool)
        (alpha beta : α) (k n : Nat) (a b : Nat → α) (row col : Nat) (cOld : α),
      beq beta zero = false →
      gemmEpilogueVal add mul zero beq alpha beta
          (gemmKernelSum add mul zero k n a b row col) cOld
        = add (mul alpha (referenceSum add mul zero k n a b row col))
            (mul beta cOld)) := by
  have hsum : ∀ (α : Type) (add mul : α → α → α) (zero : α) (k n : Nat)
      (a b : Nat → α) (row col : Nat),
      gemmKernelSum add mul zero k n a b row col
        = referenceSum add mul zero k n a b row col := by
    intro α add mul zero k n a b row col
    unfold gemmKernelSum referenceSum
    rw [gemmKernelKSeq_eq_range]
  refine ⟨gemmKernelKSeq_eq_range, hsum, ?_⟩
  intro α add mul zero beq alpha beta k n a b row col cOld hbeta
  rw [gemmEpilogueVal, hbeta, hsum]
  simp

/-- Witness for gemm_kernel_sum_refines_reference with Nat arithmetic,
beta = 3 (nonzero), k = 5, n = 4 at (row, col) = (1, 2). -/
theorem gemm_kernel_sum_refines_reference_witness :
    gemmEpilogueVal Nat.add Nat.mul 0 (fun x y => x == y) 2 3
        (gemmKernelSum Nat.add Nat.mul 0 5 4 (fun idx => idx) (fun idx => idx + 1) 1 2) 7
      = Nat.add (Nat.mul 2 (referenceSum Nat.add Nat.mul 0 5 4
          (fun idx => idx) (fun idx => idx + 1) 1 2)) (Nat.mul 3 7) :=
  gemm_kernel_sum_refines_reference.2.2 Nat Nat.add Nat.mul 0 (fun x y => x == y)
    2 3 5 4 (fun idx => idx) (fun idx => idx + 1) 1 2 7 rfl

/-! ## The tiled GEMM kernel, from src/cuda-kernel/src/lib.rs
(gemm_kernel_tiled).  Per its doc comment the block is TILE_M x TILE_N
threads; tx and ty are threadIdx.x and threadIdx.y. -/

/-- Store into the shared A tile made by thread (tx, ty) of block row byy
during the load phase of K-chunk tIdx: slot [ty][tx] receives the global A
element, zero-filled when the global coordinate is out of range; none when
the guard ty < TILE_M && tx < TILE_K excludes the thread from loading A. -/
def tileAStore {α : Type} (zero : α) (m k : Nat) (a : Nat → α)
    (byy tIdx tx ty : Nat) : Option (Nat × Nat × α) :=
  if ty < TILE_M ∧ tx < TILE_K then
    let global_row := byy * TILE_M + ty
    let global_col_k := tIdx * TILE_K + tx
    some (ty, tx,
      if global_row < m ∧ global_col_k < k
      then a (global_row * k + global_col_k) else zero)
  else none

/-- Store into the shared B tile made by thread (tx, ty) of block column bxx
during the load phase of K-chunk tIdx, guarded by ty < TILE_K && tx < TILE_N. -/
def tileBStore {α : Type} (zero : α) (k n : Nat) (b : Nat → α)
    (bxx tIdx tx ty : Nat) : Option (Nat × Nat × α) :=
  if ty < TILE_K ∧ tx < TILE_N then
    let global_row_k := tIdx * TILE_K + ty
    let global_col := bxx * TILE_N + tx
    some (ty, tx,
      if global_row_k < k ∧ global_col < n
      then b (global_row_k * n + global_col) else zero)
  else none

/-- Contents of shared TILE_A slot [r][c] after the load barrier of chunk
tIdx (the value stored by thread (tx, ty) = (c, r)). -/
def tileAVal {α : Type} (zero : α) (m k : Nat) (a : Nat → α)
    (byy tIdx r c : Nat) : α :=
  if byy * TILE_M + r < m ∧ tIdx * TILE_K + c < k
  then a ((byy * TILE_M + r) * k + (tIdx * TILE_K + c)) else zero

/-- Contents of shared TILE_B slot [r][c] after the load barrier of chunk
tIdx (the value stored by thread (tx, ty) = (c, r)). -/
def tileBVal {α : Type} (zero : α) (k n : Nat) (b : Nat → α)
    (bxx tIdx r c : Nat) : α :=
  if tIdx * TILE_K + r < k ∧ bxx * TILE_N + c < n
  then b ((tIdx * TILE_K + r) * n + (bxx * TILE_N + c)) else zero

/-- Accumulator of gemm_kernel_tiled for thread (tx, ty): chunks over K, and
within each chunk kk runs to tile_k_end = min(TILE_K, k - chunk_start); the
accumulate step carries the source guard ty < TILE_M && tx < TILE_N. -/
def gemmTiledSum {α : Type} (add mul : α → α → α) (zero : α) (m n k : Nat)
    (a b : Nat → α) (bxx byy tx ty : Nat) : α :=
  (List.range ((k + TILE_K - 1) / TILE_K)).foldl
    (fun s tIdx =>
      (List.range (min TILE_K (k - tIdx * TILE_K))).foldl
        (fun s2 kk =>
          if ty < TILE_M ∧ tx < TILE_N then
            add s2 (mul (tileAVal zero m k a byy tIdx ty kk)
              (tileBVal zero k n b bxx tIdx kk tx))
          else s2) s)
    zero

/-- Full per-thread behaviour of gemm_kernel_tiled: the written index and
value, or none when the epilogue guard row < m && col < n fails.  The prior
contents of C enter only through the function c. -/
def gemmTiledElem {α : Type} (add mul : α → α → α) (zero : α)
    (beq : α → α → Bool) (m n k : Nat) (alpha beta : α)
    (a b c : Nat → α) (bxx byy tx ty : Nat) : Option (Nat × α) :=
  let row := byy * TILE_M + ty
  let col := bxx * TILE_N + tx
  if row < m ∧ col < n then
    some (row * n + col,
      gemmEpilogueVal add mul zero beq alpha beta
        (gemmTiledSum add mul zero m n k a b bxx byy tx ty) (c (row * n + col)))
  else none

/-- Epilogue write value of gemm_kernel_wmma for one fragment slot: fragVal
is the alpha-scaled accumulator slot (built only from A and B fragments);
when beta == 0.0 the prior C value is not consulted. -/
def wmmaEpilogueVal {α : Type} (add mul : α → α → α) (zero : α)
    (beq : α → α → Bool) (beta fragVal cOld : α) : α :=
  if beq beta zero then fragVal else add fragVal (mul beta cOld)

/-- C3: for both launched GEMM kernels (gemm_kernel and gemm_kernel_tiled),
and the wmma epilogue, when beta == 0 the result is independent of the prior
contents of C (two runs with arbitrarily different C contents agree, and the
written value is alpha * sum), and when beta != 0 each in-range element is
written as alpha * sum + beta * c_old; stated for every interpretation of the
scalar arithmetic. -/
theorem gemm_kernels_beta_zero_c_independent (α : Type)
    (add mul : α → α → α) (zero : α) (beq : α → α → Bool)
    (m n k : Nat) (alpha beta : α) (a b c c1 c2 : Nat → α)
    (bdx bdy bxx byy tx ty : Nat) (fragVal cOld1 cOld2 : α) :
    (beq beta zero = true →
      gemmKernelElem add mul zero beq m n k alpha beta a b c1 bdx bdy bxx byy tx
        = gemmKernelElem add mul zero beq m n k alpha beta a b c2 bdx bdy bxx byy tx
      ∧ gemmTiledElem add mul zero beq m n k alpha beta a b c1 bxx byy tx ty
        = gemmTiledElem add mul zero beq m n k alpha beta a b c2 bxx byy tx ty
      ∧ wmmaEpilogueVal add mul zero beq beta fragVal cOld1
        = wmmaEpilogueVal add mul zero beq beta fragVal cOld2
      ∧ (∀ idx v,
          gemmKernelElem add mul zero beq m n k alpha beta a b c bdx bdy bxx byy tx
            = some (idx, v) →
          v = mul alpha (gemmKernelSum add mul zero k n a b
            (gemmKernelRow bdx bdy byy tx) (gemmKernelCol bdx bxx tx)))
      ∧ (∀ idx v,
          gemmTiledElem add mul zero beq m n k alpha beta a b c bxx byy tx ty
            = some (idx, v) →
          v = mul alpha (gemmTiledSum add mul zero m n k a b bxx byy tx ty))) ∧
    (beq beta zero = false →
      (∀ idx v,
        gemmKernelElem add mul zero beq m n k alpha beta a b c bdx bdy bxx byy tx
          = some (idx, v) →
        v = add (mul alpha (gemmKernelSum add mul zero k n a b
            (gemmKernelRow bdx bdy byy tx) (gemmKernelCol bdx bxx tx)))
          (mul beta (c idx)))
      ∧ (∀ idx v,
        gemmTiledElem add mul zero beq m n k alpha beta a b c bxx byy tx ty
          = some (idx, v) →
        v = add (mul alpha (gemmTiledSum add mul zero m n k a b bxx byy tx ty))
          (mul beta (c idx)))) := by
  constructor
  · intro hbeta
    refine ⟨?_, ?_, ?_, ?_, ?_⟩
    · unfold gemmKernelElem gemmEpilogueVal
      rw [hbeta]
      simp
    · unfold gemmTiledElem gemmEpilogueVal
      rw [hbeta]
      simp
    · unfold wmmaEpilogueVal
      rw [hbeta]
      simp
    · intro idx v h
      unfold gemmKernelElem gemmEpilogueVal at h
      rw [hbeta] at h
      simp at h
      exact h.2.2.symm
    · intro idx v h
      unfold gemmTiledElem gemmEpilogueVal at h
      rw [hbeta] at h
      simp at h
      exact h.2.2.symm
  · intro hbeta
    constructor
    · intro idx v h
      unfold gemmKernelElem gemmEpilogueVal at h
      rw [hbeta] at h
      simp at h
      rw [← h.2.1]
      exact h.2.2.symm
    · intro idx v h
      unfold gemmTiledElem gemmEpilogueVal at h
      rw [hbeta] at h
      simp at h
      rw [← h.2.1]
      exact h.2.2.symm

/-- Witness for gemm_kernels_beta_zero_c_independent: Nat arithmetic,
beta = 0, two different C contents (all-5 and all-9) give the same
per-thread result of gemm_kernel. -/
theorem gemm_kernels_beta_zero_c_independent_witness :
    gemmKernelElem Nat.add Nat.mul 0 (fun x y => x == y) 2 2 2 1 0
        (fun _ => 1) (fun _ => 1) (fun _ => 5) 2 2 0 0 1
      = gemmKernelElem Nat.add Nat.mul 0 (fun x y => x == y) 2 2 2 1 0
        (fun _ => 1) (fun _ => 1) (fun _ => 9) 2 2 0 0 1 :=
  ((gemm_kernels_beta_zero_c_independent Nat Nat.add Nat.mul 0 (fun x y => x == y)
    2 2 2 1 0 (fun _ => 1) (fun _ => 1) (fun _ => 0) (fun _ => 5) (fun _ => 9)
    2 2 0 0 1 0 0 0 0).1 rfl).1

/-- C2 counterexample: not every thread of the (TILE_M x TILE_N) block stores
an element into each shared tile during a load phase.  Thread
(tx, ty) = (16, 0) stores nothing into the A tile (the guard tx < TILE_K
fails), and thread (tx, ty) = (0, 16) stores nothing into the B tile, shown
here for m = 128, k = 16, n = 128, chunk 0, block (0, 0). -/
theorem tiled_load_counterexample :
    tileAStore (α := Nat) 0 128 16 (fun _ => 1) 0 0 16 0 = none ∧
    tileBStore (α := Nat) 0 16 128 (fun _ => 1) 0 0 0 16 = none := by
  constructor <;> rfl

/-- C2 amended: during the load phase of every K-chunk, a thread (tx, ty) of
the TILE_M x TILE_N block stores exactly one element into the shared A tile
iff tx < TILE_K (at slot [ty][tx]) and exactly one element into the shared B
tile iff ty < TILE_K (at slot [ty][tx]); the other threads store nothing into
the respective tile.  Each slot of the A tile (TILE_M x TILE_K) and of the B
tile (TILE_K x TILE_N) is stored by exactly one thread of the block, and the
stored value is the corresponding global element, or zero when the global
coordinate falls outside [0,m) x [0,k) for A or [0,k) x [0,n) for B. -/
theorem tiled_load_phase (α : Type) (zero : α) (m n k : Nat)
    (a b : Nat → α) (bxx byy tIdx : Nat) :
    (∀ tx ty, tx < TILE_N → ty < TILE_M →
      (tx < TILE_K →
        tileAStore zero m k a byy tIdx tx ty = some (ty, tx,
          if byy * TILE_M + ty < m ∧ tIdx * TILE_K + tx < k
          then a ((byy * TILE_M + ty) * k + (tIdx * TILE_K + tx)) else zero)) ∧
      (TILE_K ≤ tx → tileAStore zero m k a byy tIdx tx ty = none) ∧
      (ty < TILE_K →
        tileBStore zero k n b bxx tIdx tx ty = some (ty, tx,
          if tIdx * TILE_K + ty < k ∧ bxx * TILE_N + tx < n
          then b ((tIdx * TILE_K + ty) * n + (bxx * TILE_N + tx)) else zero)) ∧
      (TILE_K ≤ ty → tileBStore zero k n b bxx tIdx tx ty = none)) ∧
    (∀ r c, r < TILE_M → c < TILE_K →
      ∃! t : Nat × Nat, (t.1 < TILE_N ∧ t.2 < TILE_M) ∧
        ∃ v, tileAStore zero m k a byy tIdx t.1 t.2 = some (r, c, v)) ∧
    (∀ r c, r < TILE_K → c < TILE_N →
      ∃! t : Nat × Nat, (t.1 < TILE_N ∧ t.2 < TILE_M) ∧
        ∃ v, tileBStore zero k n b bxx tIdx t.1 t.2 = some (r, c, v)) := by
  refine ⟨?_, ?_, ?_⟩
  · intro tx ty htx hty
    refine ⟨?_, ?_, ?_, ?_⟩
    · intro h
      unfold tileAStore
      rw [if_pos ⟨hty, h⟩]
    · intro h
      unfold tileAStore
      rw [if_neg (by omega)]
    · intro h
      unfold tileBStore
      rw [if_pos ⟨h, htx⟩]
    · intro h
      unfold tileBStore
      rw [if_neg (by omega)]
  · intro r c hr hc
    refine ⟨(c, r), ⟨⟨by unfold TILE_N TILE_K at *; omega, hr⟩, ?_⟩, ?_⟩
    · exact ⟨_, by unfold tileAStore; rw [if_pos ⟨hr, hc⟩]⟩
    · rintro ⟨tx, ty⟩ ⟨⟨htx, hty⟩, v, hst⟩
      unfold tileAStore at hst
      split at hst
      case isFalse => exact absurd hst (by simp)
      case isTrue hcond =>
        have h1 := Option.some.inj hst
        simp only [Prod.mk.injEq] at h1 ⊢
        exact ⟨h1.2.1, h1.1⟩
  · intro r c hr hc
    refine ⟨(c, r), ⟨⟨hc, by unfold TILE_M TILE_K at *; omega⟩, ?_⟩, ?_⟩
    · exact ⟨_, by unfold tileBStore; rw [if_pos ⟨hr, hc⟩]⟩
    · rintro ⟨tx, ty⟩ ⟨⟨htx, hty⟩, v, hst⟩
      unfold tileBStore at hst
      split at hst
      case isFalse => exact absurd hst (by simp)
      case isTrue hcond =>
        have h1 := Option.some.inj hst
        simp only [Prod.mk.injEq] at h1 ⊢
        exact ⟨h1.2.1, h1.1⟩

/-- Witness for tiled_load_phase: Nat arithmetic, m = 130, k = 33, chunk 2:
thread (tx, ty) = (1, 127) stores the zero-filled value for its
out-of-range global coordinate (row 127 < 130 but K index 33 >= 33). -/
theorem tiled_load_phase_witness :
    tileAStore (α := Nat) 0 130 33 (fun idx => idx + 2) 0 2 1 127
      = some (127, 1,
          if 0 * TILE_M + 127 < 130 ∧ 2 * TILE_K + 1 < 33
          then (fun idx => idx + 2) ((0 * TILE_M + 127) * 33 + (2 * TILE_K + 1))
          else 0) :=
  ((tiled_load_phase Nat 0 130 130 33 (fun idx => idx + 2) (fun idx => idx + 2)
    0 0 2).1 1 127 (by decide) (by decide)).1 (by decide)

/-! ## The tensor-fragment kernel, from src/cuda-kernel/src/lib.rs
(gemm_kernel_wmma).  warp_id and lane_id are derived from the flat thread
index tid by division and remainder by WARP_SIZE = 32; the fragment store
loop of the epilogue writes slot i of each lane at the offsets below. -/

/-- Embeds const WARP_SIZE. -/
def WARP_SIZE : Nat := 32

/-- Warp output tile base row: (by * 4 + warp_id / 2) * WMMA_M with
WMMA_M = 16. -/
def wmmaWarpRow (byy warp_id : Nat) : Nat := (byy * 4 + warp_id / 2) * 16

/-- Warp output tile base column: (bx * 4 + warp_id % 2) * WMMA_N with
WMMA_N = 16. -/
def wmmaWarpCol (bxx warp_id : Nat) : Nat := (bxx * 4 + warp_id % 2) * 16

/-- Row offset of fragment slot i for a lane in the epilogue store loop:
(lane_id / 4) * 2 + i / 4. -/
def wmmaStoreRowOff (lane_id i : Nat) : Nat := lane_id / 4 * 2 + i / 4

/-- Column offset of fragment slot i for a lane in the epilogue store loop:
(i % 4) * 4 + lane_id % 4. -/
def wmmaStoreColOff (lane_id i : Nat) : Nat := i % 4 * 4 + lane_id % 4

/-- Whether the thread with flat index tid of block (bx, by) writes output
element (i, j) when storing fragment slot: both the outer guard
warp_row < m && warp_col < n and the per-slot guard global coordinates
within (m, n) are modelled. -/
def wmmaWrites (m n bxx byy tid slot i j : Nat) : Bool :=
  let warp_id := tid / WARP_SIZE
  let lane_id := tid % WARP_SIZE
  let warp_row := wmmaWarpRow byy warp_id
  let warp_col := wmmaWarpCol bxx warp_id
  decide (warp_row < m) && decide (warp_col < n) &&
    (let global_row := warp_row + wmmaStoreRowOff lane_id slot
     let global_col := warp_col + wmmaStoreColOff lane_id slot
     decide (global_row < m) && decide (global_col < n)
       && (global_row == i) && (global_col == j))

set_option maxRecDepth 8192 in
/-- C5 (code bug): with m = n = 64 and a single block (0, 0) of 512 threads
(16 warps, the intended 4 by 4 warp grid for the 64 by 64 block tile), the
output element (0, 32) lies in range but is written by no
(warp, lane, fragment-slot) combination at all, because warp_col is computed
from warp_id % 2 and thus covers only the first two 16-column sub-tiles of
the block tile; element (0, 0) is written, so the coverage model is not
vacuous. -/
theorem wmma_coverage_hole :
    ((List.range 512).all fun tid =>
      (List.range 8).all fun slot =>
        ! wmmaWrites 64 64 0 0 tid slot 0 32) = true ∧
    ((List.range 512).any fun tid =>
      (List.range 8).any fun slot =>
        wmmaWrites 64 64 0 0 tid slot 0 0) = true := by
  constructor <;> decide

/-! ## The reference oracle verify_gemm, from src/src/lib.rs.  Scalars are
modelled by the rationals, a genuine linearly ordered field, so that the
absolute-value tolerance comparison is meaningful; the accumulation order of
the reference sum is the definitional left fold of referenceSum. -/

/-- Reference value C_ref[i*n + j] built by the triple loop of verify_gemm:
alpha * (left-to-right sum over p of a[i*k+p] * b[p*n+j]) + beta * c[i*n+j],
elements visited in row-major order (i outer, j inner). -/
def cRefEntry (k n : Nat) (alpha : ℚ) (a b : Nat → ℚ) (beta : ℚ)
    (c : Nat → ℚ) (i j : Nat) : ℚ :=
  alpha * referenceSum (· + ·) (· * ·) 0 k n a b i j + beta * c (i * n + j)

/-- The c_ref array read back at linear index idx (idx = i*n + j with
i = idx / n, j = idx % n for the row-major fill above). -/
def cRefLinear (k n : Nat) (alpha : ℚ) (a b : Nat → ℚ) (beta : ℚ)
    (c : Nat → ℚ) (idx : Nat) : ℚ :=
  cRefEntry k n alpha a b beta c (idx / n) (idx % n)

/-- First linear index at which the comparison loop of verify_gemm trips:
the first idx in 0 .. m*n with (c[idx] - c_ref[idx]).abs() > tolerance. -/
def verifyFailIdx (m n k : Nat) (alpha : ℚ) (a b : Nat → ℚ) (beta : ℚ)
    (c : Nat → ℚ) (tol : ℚ) : Option Nat :=
  (List.range (m * n)).find?
    (fun idx => decide (tol < |c idx - cRefLinear k n alpha a b beta c idx|))

/-- Embeds verify_gemm: the returned Bool, paired with the diagnostic the
source prints on the first mismatch (index, GPU value, CPU reference value). -/
def verify_gemm (m n k : Nat) (alpha : ℚ) (a b : Nat → ℚ) (beta : ℚ)
    (c : Nat → ℚ) (tol : ℚ) : Bool × Option (Nat × ℚ × ℚ) :=
  match verifyFailIdx m n k alpha a b beta c tol with
  | some idx => (false, some (idx, c idx, cRefLinear k n alpha a b beta c idx))
  | none => (true, none)

/-- find? over a contiguous range returns a minimal satisfying element: if i0
satisfies p, lies in the range, and everything before it fails p, find?
returns exactly i0. -/
theorem find?_range'_of_min (p : Nat → Bool) (i0 : Nat) :
    ∀ (len s : Nat), s ≤ i0 → i0 < s + len → p i0 = true →
      (∀ j, s ≤ j → j < i0 → p j = false) →
      (List.range' s len).find? p = some i0 := by
  intro len
  induction len with
  | zero => intro s h1 h2; omega
  | succ len ih =>
      intro s h1 h2 hp hmin
      rw [List.range'_succ]
      rcases Nat.eq_or_lt_of_le h1 with rfl | hlt
      · rw [List.find?_cons_of_pos _ hp]
      · have hps : p s = false := hmin s le_rfl hlt
        rw [List.find?_cons_of_neg _ (by simp [hps])]
        exact ih (s + 1) hlt (by omega) hp (fun j hj1 hj2 => hmin j (by omega) hj2)

/-- C4: verify_gemm computes the reference entries by the formula
alpha * (left-to-right sum of a[i*k+p] * b[p*n+j]) + beta * c[i*n+j]; it
returns true iff every linear index satisfies the tolerance bound, and if
some index violates it, it returns false at the first (smallest) violating
index, reporting that index together with both compared values. -/
theorem verify_gemm_first_mismatch (m n k : Nat) (alpha beta tol : ℚ)
    (a b c : Nat → ℚ) :
    (∀ i j, i < m → j < n →
      cRefLinear k n alpha a b beta c (i * n + j)
        = alpha * referenceSum (· + ·) (· * ·) 0 k n a b i j
            + beta * c (i * n + j)) ∧
    ((verify_gemm m n k alpha a b beta c tol).1 = true ↔
      ∀ idx, idx < m * n →
        |c idx - cRefLinear k n alpha a b beta c idx| ≤ tol) ∧
    (∀ idx, idx < m * n →
      tol < |c idx - cRefLinear k n alpha a b beta c idx| →
      ∃ i0, i0 ≤ idx ∧ i0 < m * n ∧
        tol < |c i0 - cRefLinear k n alpha a b beta c i0| ∧
        (∀ j, j < i0 → |c j - cRefLinear k n alpha a b beta c j| ≤ tol) ∧
        verify_gemm m n k alpha a b beta c tol
          = (false, some (i0, c i0, cRefLinear k n alpha a b beta c i0))) := by
  refine ⟨?_, ?_, ?_⟩
  · intro i j hi hj
    have hn : 0 < n := by omega
    have hdm := div_mod_of_decomp n (i * n + j) i j hn rfl hj
    unfold cRefLinear
    rw [hdm.1, hdm.2]
    rfl
  · unfold verify_gemm
    cases hfind : verifyFailIdx m n k alpha a b beta c tol with
    | some idx0 =>
        simp only [Bool.false_eq_true, false_iff, not_forall]
        have hmem := List.mem_of_find?_eq_some hfind
        have hp := List.find?_some hfind
        rw [List.mem_range] at hmem
        refine ⟨idx0, hmem, ?_⟩
        simp only [decide_eq_true_eq] at hp
        exact not_le.mpr hp
    | none =>
        simp only [true_iff]
        intro idx hidx
        have := List.find?_eq_none.mp hfind idx (List.mem_range.mpr hidx)
        simp only [decide_eq_true_eq] at this
        exact not_lt.mp this
  · intro idx hidx hviol
    set p : Nat → Bool :=
      fun j => decide (tol < |c j - cRefLinear k n alpha a b beta c j|) with hpdef
    have hex : ∃ j, p j = true := ⟨idx, by simp [hpdef, hviol]⟩
    let i0 := Nat.find hex
    have hpi0 : p i0 = true := Nat.find_spec hex
    have hle : i0 ≤ idx := Nat.find_min' hex (by simp [hpdef, hviol])
    have hmin : ∀ j, j < i0 → p j = false := by
      intro j hj
      have := Nat.find_min hex hj
      simpa using this
    have hfind : verifyFailIdx m n k alpha a b beta c tol = some i0 := by
      unfold verifyFailIdx
      rw [List.range_eq_range']
      exact find?_range'_of_min p i0 (m * n) 0 (Nat.zero_le _) (by omega) hpi0
        (fun j _ hj => hmin j hj)
    refine ⟨i0, hle, by omega, ?_, ?_, ?_⟩
    · have := hpi0
      simp only [hpdef, decide_eq_true_eq] at this
      exact this
    · intro j hj
      have := hmin j hj
      simp only [hpdef, decide_eq_false_iff_not] at this
      exact not_lt.mp this
    · unfold verify_gemm
      rw [hfind]

/-- Witness for verify_gemm_first_mismatch: m = n = k = 1, alpha = 1,
beta = 0, A = B = [1], C result = [2], tolerance 0: the reference value is 1,
the mismatch is at index 0 with values (2, 1). -/
theorem verify_gemm_first_mismatch_witness :
    ∃ i0, i0 ≤ 0 ∧ i0 < 1 * 1 ∧
      (0:ℚ) < |(fun _ => (2:ℚ)) i0
          - cRefLinear 1 1 1 (fun _ => 1) (fun _ => 1) 0 (fun _ => 2) i0| ∧
      (∀ j, j < i0 →
        |(fun _ => (2:ℚ)) j
            - cRefLinear 1 1 1 (fun _ => 1) (fun _ => 1) 0 (fun _ => 2) j| ≤ 0) ∧
      verify_gemm 1 1 1 1 (fun _ => 1) (fun _ => 1) 0 (fun _ => 2) 0
        = (false, some (i0, (fun _ => (2:ℚ)) i0,
            cRefLinear 1 1 1 (fun _ => 1) (fun _ => 1) 0 (fun _ => 2) i0)) :=
  (verify_gemm_first_mismatch 1 1 1 1 0 0 (fun _ => 1) (fun _ => 1)
    (fun _ => 2)).2.2 0 (by norm_num)
    (by norm_num [cRefLinear, cRefEntry, referenceSum, dotAcc, List.range_succ])
